import Mathlib

/-!
Shallow embedding of the fit/uncertainty engine of `src/gmf_calculator.py`
(class `RuptureGmf`).  Python floats are modelled as real numbers, numpy
arrays as lists of reals, unset instance attributes as `Option` fields,
and uncaught Python exceptions (`ValueError`, `IndexError`,
`AttributeError`) as `none` results.  Printing to stdout is not modelled
except for the insufficient-data diagnostic of `uncertainty_model`, which
is returned as a boolean flag.
-/

/-- Python builtin `min` over a list (raises `ValueError`, i.e. `none`, on an
empty list). -/
noncomputable def pymin (l : List ℝ) : Option ℝ :=
  match l with
  | [] => none
  | a :: t => some (t.foldl min a)

/-- Python builtin `max` over a list (`none` on an empty list). -/
noncomputable def pymax (l : List ℝ) : Option ℝ :=
  match l with
  | [] => none
  | a :: t => some (t.foldl max a)

/-- Helper for `whereIdx`: indices, counted from offset `k`, of the entries of
`l` satisfying `p`. -/
def whereIdxAux (p : ℝ → Bool) : List ℝ → ℕ → List ℕ
  | [], _ => []
  | a :: t, k => if p a then k :: whereIdxAux p t (k + 1) else whereIdxAux p t (k + 1)

/-- Embedding of `np.where(cond)[0]` on a 1-D array: the increasing list of
indices whose entry satisfies `p`. -/
def whereIdx (p : ℝ → Bool) (l : List ℝ) : List ℕ := whereIdxAux p l 0

/-- Helper for `argmin`: `bv` and `bi` are the best value and best index seen
so far, `k` is the position of the head of the remaining list; the candidate is
replaced only on a strictly smaller value, so ties keep the earliest index. -/
noncomputable def argminAux : List ℝ → ℝ → ℕ → ℕ → ℕ
  | [], _, bi, _ => bi
  | a :: t, bv, bi, k => if a < bv then argminAux t a k (k + 1) else argminAux t bv bi (k + 1)

/-- Embedding of `np.argmin`: the first index attaining the minimum value,
`none` (a raised `ValueError`) on an empty array. -/
noncomputable def argmin (l : List ℝ) : Option ℕ :=
  match l with
  | [] => none
  | a :: t => some (argminAux t a 0 1)

/-- Numpy fancy indexing `arr[indices]` (also repeated Python `list[i]`
lookups): `none` models a raised `IndexError`. -/
def pick {α : Type} (l : List α) : List ℕ → Option (List α)
  | [] => some []
  | i :: is =>
    match l.get? i, pick l is with
    | some a, some rest => some (a :: rest)
    | _, _ => none

/-- One rupture's parameter vector, as read off by the source: `rup.mag`,
`rup.hypocenter.longitude` / `.latitude` / `.depth`,
`rup.surface.get_strike()` and `rup.surface.get_dip()`. -/
structure Rupture where
  mag : ℝ
  longitude : ℝ
  latitude : ℝ
  depth : ℝ
  strike : ℝ
  dip : ℝ

/-- The twelve `min_*` / `max_*` attributes set at the end of
`uncertainty_model`. -/
structure ParamRanges where
  min_mag : ℝ
  max_mag : ℝ
  min_lon : ℝ
  max_lon : ℝ
  min_lat : ℝ
  max_lat : ℝ
  min_depth : ℝ
  max_depth : ℝ
  min_strike : ℝ
  max_strike : ℝ
  min_dip : ℝ
  max_dip : ℝ

/-- The instance state of a `RuptureGmf` object.  Attributes that the source
only creates inside some method are `Option`-valued (`none` = attribute not
set, so that reading it raises `AttributeError`). -/
structure RuptureGmf where
  rupture_list : List Rupture
  gmf_list : List (List ℝ)
  mmi_list : List (List ℝ)
  mmi_obs : Option (List ℝ)
  sum_squares_list : Option (List ℝ)
  rmse : Option (List ℝ)
  best_rupture : Option Rupture
  min_rmse : Option ℝ
  sigma : Option ℝ
  uncert_fun : Option (ℝ × ℝ)
  fitted_ruptures : Option (List Rupture)
  param_ranges : Option ParamRanges

/-- The per-candidate residual sum of squares `np.sum((mmi - mmi_obs)**2)`;
the numpy elementwise subtraction of two index-aligned arrays is modelled by
`zip`. -/
def sum_squares (mmi mmi_obs : List ℝ) : ℝ :=
  ((mmi.zip mmi_obs).map (fun q => (q.1 - q.2) ^ 2)).sum

/-- Line 218 of the source: `weights*(1./sum(weights))`. -/
noncomputable def normalizeWeights (w : List ℝ) : List ℝ :=
  w.map (fun wi => wi * (1 / w.sum))

/-- The weighted per-candidate sum of squares
`np.dot(weights, (mmi - mmi_obs)**2)` after weight normalisation.  (The source
re-normalises `weights` on every loop iteration; in exact arithmetic the
normalisation is idempotent, so a single normalisation is used here.) -/
noncomputable def weightedSS (mmi mmi_obs w : List ℝ) : ℝ :=
  (((normalizeWeights w).zip ((mmi.zip mmi_obs).map (fun q => (q.1 - q.2) ^ 2))).map
    (fun q => q.1 * q.2)).sum

/-- Method `calc_sum_squares_mmi`: one unweighted sum of squares per stored
candidate field. -/
def calc_sum_squares_mmi (s : RuptureGmf) (mmi_obs : List ℝ) : RuptureGmf :=
  { s with sum_squares_list := some (s.mmi_list.map (fun mmi => sum_squares mmi mmi_obs)) }

/-- Method `calc_sum_squares_mmi_weighted`: one weighted sum of squares per
stored candidate field. -/
noncomputable def calc_sum_squares_mmi_weighted (s : RuptureGmf) (mmi_obs w : List ℝ) : RuptureGmf :=
  { s with sum_squares_list := some (s.mmi_list.map (fun mmi => weightedSS mmi mmi_obs w)) }

/-- Method `calc_rmse`.  It first stores the observations, then — only if the
attribute `sum_squares_list` does not already exist (the `try`/`except
AttributeError` guard of the source) — computes the sum-of-squares list and
the misfit array `rmse`: elementwise `np.sqrt(sum_squares)` in the weighted
branch, elementwise `np.sqrt(sum_squares/float(len(mmi_obs)))` in the
unweighted branch. -/
noncomputable def calc_rmse (s : RuptureGmf) (mmi_obs : List ℝ)
    (weights : Option (List ℝ)) : RuptureGmf :=
  let s0 := { s with mmi_obs := some mmi_obs }
  match s0.sum_squares_list with
  | some _ => s0
  | none =>
    match weights with
    | some w =>
      let s1 := calc_sum_squares_mmi_weighted s0 mmi_obs w
      { s1 with rmse := some ((s1.sum_squares_list.getD []).map Real.sqrt) }
    | none =>
      let s1 := calc_sum_squares_mmi s0 mmi_obs
      { s1 with rmse := some ((s1.sum_squares_list.getD []).map
          (fun ss => Real.sqrt (ss / (mmi_obs.length : ℝ)))) }

/-- Method `find_best_fit`: `np.argmin(self.rmse)`, then stores the rupture at
that index and the minimum misfit value. -/
noncomputable def find_best_fit (s : RuptureGmf) : Option RuptureGmf :=
  match s.rmse with
  | none => none
  | some rmse =>
    match argmin rmse with
    | none => none
    | some i =>
      match s.rupture_list.get? i, rmse.get? i with
      | some r, some v => some { s with best_rupture := some r, min_rmse := some v }
      | _, _ => none

/-- The 97.5% quantile of the standard normal distribution, as computed by
`scipy.stats.norm.ppf(0.975)` in double precision. -/
def z0975 : ℝ := 1.959963984540054

/-- `scipy.stats.norm(loc, scale).ppf(0.975)`: the 97.5th percentile of a
normal distribution with the given location and scale parameters, namely
`loc + scale * z0975`. -/
noncomputable def ppf975 (loc scale : ℝ) : ℝ := loc + scale * z0975

/-- The accepted candidate indices `np.where(self.rmse < thr)[0]` used by
`uncertainty_model` (with threshold `1e24` in the degenerate branch and
`self.uncert_fun.ppf(0.975)` otherwise). -/
noncomputable def accepted_indices (rmse : List ℝ) (thr : ℝ) : List ℕ :=
  whereIdx (fun a => decide (a < thr)) rmse

/-- The twelve parameter bounds of `uncertainty_model` over a non-empty list
`f :: fs` of accepted ruptures: Python `min(...)`/`max(...)` of each parameter
list. -/
noncomputable def rangesOf (f : Rupture) (fs : List Rupture) : ParamRanges :=
  { min_mag := (fs.map Rupture.mag).foldl min f.mag
    max_mag := (fs.map Rupture.mag).foldl max f.mag
    min_lon := (fs.map Rupture.longitude).foldl min f.longitude
    max_lon := (fs.map Rupture.longitude).foldl max f.longitude
    min_lat := (fs.map Rupture.latitude).foldl min f.latitude
    max_lat := (fs.map Rupture.latitude).foldl max f.latitude
    min_depth := (fs.map Rupture.depth).foldl min f.depth
    max_depth := (fs.map Rupture.depth).foldl max f.depth
    min_strike := (fs.map Rupture.strike).foldl min f.strike
    max_strike := (fs.map Rupture.strike).foldl max f.strike
    min_dip := (fs.map Rupture.dip).foldl min f.dip
    max_dip := (fs.map Rupture.dip).foldl max f.dip }

/-- Tail of `uncertainty_model` after the accepted indices are computed:
`print 'max rmse', max(self.rmse)` (raises on an empty misfit array), the
gathering of `self.fitted_ruptures = [self.rupture_list[i] for i in indices]`
(raises `IndexError` on a too-short rupture list), and the twelve
`min(...)`/`max(...)` parameter bounds (raise `ValueError` when the accepted
set is empty).  The boolean records whether the insufficient-data diagnostic
was printed. -/
noncomputable def finalizeFitted (s : RuptureGmf) (rmse : List ℝ) (idxs : List ℕ)
    (warned : Bool) : Option (RuptureGmf × Bool) :=
  match pymax rmse with
  | none => none
  | some _ =>
    match pick s.rupture_list idxs with
    | none => none
    | some fitted =>
      match fitted with
      | [] => none
      | f :: fs => some ({ s with fitted_ruptures := some (f :: fs),
                                  param_ranges := some (rangesOf f fs) }, warned)

/-- Method `uncertainty_model`.  With at most 6 observations it prints the
insufficient-data diagnostic (returned flag `true`) and accepts every
candidate with misfit below the sentinel `1e24`; otherwise it stores
`self.sigma = (1./(len(self.mmi_obs)-6))*min(self.rmse)**2`, freezes
`self.uncert_fun = norm(min(self.rmse), self.sigma)` (scipy's second argument
is the scale parameter, i.e. the standard deviation, of the distribution) and
accepts every candidate with misfit strictly below `uncert_fun.ppf(0.975)`.
(On the exceptional paths the partial attribute mutations of the source are
not retained by this model; no claim depends on them.) -/
noncomputable def uncertainty_model (s : RuptureGmf) : Option (RuptureGmf × Bool) :=
  match s.mmi_obs, s.rmse with
  | some obs, some rmse =>
    if obs.length ≤ 6 then
      finalizeFitted s rmse (accepted_indices rmse 1e24) true
    else
      match pymin rmse with
      | none => none
      | some m =>
        let sig := (1 / ((obs.length : ℝ) - 6)) * m ^ 2
        finalizeFitted { s with sigma := some sig, uncert_fun := some (m, sig) }
          rmse (accepted_indices rmse (ppf975 m sig)) false
  | _, _ => none

/-- The axis names accepted by `uncertainty_slice` (the keys of
`parameter_dict` in the source). -/
inductive ParamKey where
  | mag | longitude | latitude | depth | strike | dip

/-- The row of `parameter_space` selected by a `ParamKey`, per rupture. -/
def paramOf : ParamKey → Rupture → ℝ
  | ParamKey.mag, r => r.mag
  | ParamKey.longitude, r => r.longitude
  | ParamKey.latitude, r => r.latitude
  | ParamKey.depth, r => r.depth
  | ParamKey.strike, r => r.strike
  | ParamKey.dip, r => r.dip

/-- Embedding of `np.unique`: the sorted list of distinct values. -/
noncomputable def uniqueSorted (l : List ℝ) : List ℝ :=
  (l.dedup).insertionSort (fun a b => a ≤ b)

/-- The double loop of `uncertainty_slice`: for every `xi` in
`np.unique(xvalues)` and `yi` in `np.unique(yvalues)`, if some position
matches both (`np.intersect1d` of the two `np.where` results is non-empty)
record `(xi, yi, min(rmse_subset[i]))`. -/
noncomputable def pointMins (X Y R : List ℝ) : List (ℝ × ℝ × ℝ) :=
  (uniqueSorted X).flatMap (fun xi =>
    (uniqueSorted Y).filterMap (fun yi =>
      match pymin ((((X.zip Y).zip R).filter
          (fun q => decide (q.1.1 = xi) && decide (q.1.2 = yi))).map (fun q => q.2)) with
      | none => none
      | some mv => some (xi, yi, mv)))

/-- One axis of `np.mgrid[a:b:step]`: the values `a + k*step` for
`0 ≤ k < ⌈(b - a)/step⌉`. -/
noncomputable def gridAxis (a b step : ℝ) : List ℝ :=
  (List.range (⌈(b - a) / step⌉).toNat).map (fun k => a + (k : ℝ) * step)

/-- Method `uncertainty_slice`.  Selects the candidates whose `z` parameter is
exactly `zvalue`, collapses them to one minimum misfit per distinct `(x, y)`
pair, builds the interpolation grid (`np.mgrid` with steps 0.02 and 0.01 in
the source; the steps are the `dx`/`dy` parameters here, and the grid feeds
only the rendering side effects, whose `ValueError`/`AttributeError` failures
the source catches), and returns `(xs, ys, rmse_subset)`.  With zero matching
candidates the builtin `min(xvalues)` on line 368 of the source raises an
uncaught `ValueError`, modelled by `none`; the method never assigns any
instance attribute, so the returned state is the input state. -/
noncomputable def uncertainty_slice (s : RuptureGmf) (x y z : ParamKey)
    (zvalue dx dy : ℝ) : Option ((List ℝ × List ℝ × List ℝ) × RuptureGmf) :=
  match s.rmse with
  | none => none
  | some rmse =>
    let idxs := whereIdx (fun a => decide (a = zvalue)) (s.rupture_list.map (paramOf z))
    let xvalues := idxs.map (fun i => (s.rupture_list.map (paramOf x)).getD i 0)
    let yvalues := idxs.map (fun i => (s.rupture_list.map (paramOf y)).getD i 0)
    match pick rmse idxs with
    | none => none
    | some rsub =>
      let pts := pointMins xvalues yvalues rsub
      match pymin xvalues, pymax xvalues, pymin yvalues, pymax yvalues with
      | some xmin, some xmax, some ymin, some ymax =>
        let _grid := (gridAxis xmin xmax dx, gridAxis ymin ymax dy)
        some ((pts.map (fun t => t.1), pts.map (fun t => t.2.1),
               pts.map (fun t => t.2.2)), s)
      | _, _, _, _ => none

/-- Spec-side form of the unweighted misfit (§4.1 of the spec, claim C4):
the root-mean-square error `sqrt(sum over sites of (predicted - observed)^2 / N)`
over the `N` observation sites. -/
noncomputable def rmseSpec (pred obs : List ℝ) : ℝ :=
  Real.sqrt ((((pred.zip obs).map (fun q => (q.1 - q.2) ^ 2)).sum) / (obs.length : ℝ))

/-- Spec-side form of the weighted misfit claimed in §4.1 of the spec (claim
C2): normalise the weights to sum to 1, then take the weighted sum of squared
residuals, with no square root applied. -/
noncomputable def weightedMisfitSpec (pred obs w : List ℝ) : ℝ :=
  (((w.map (fun wi => wi / w.sum)).zip ((pred.zip obs).map (fun q => (q.1 - q.2) ^ 2))).map
    (fun q => q.1 * q.2)).sum

/-- The candidates contributing to a slice request: the stored
(rupture, misfit) pairs whose `z` parameter is exactly `zvalue`. -/
noncomputable def contributing (rl : List Rupture) (rmse : List ℝ) (z : ParamKey)
    (zvalue : ℝ) : List (Rupture × ℝ) :=
  (rl.zip rmse).filter (fun q => decide (paramOf z q.1 = zvalue))

theorem mem_whereIdxAux (p : ℝ → Bool) :
    ∀ (l : List ℝ) (k i : ℕ),
      i ∈ whereIdxAux p l k ↔ ∃ j, j < l.length ∧ i = k + j ∧ p (l.getD j 0) = true
  | [], k, i => by simp [whereIdxAux]
  | a :: t, k, i => by
    have ih := mem_whereIdxAux p t (k + 1) i
    constructor
    · intro hmem
      by_cases h : p a
      · simp only [whereIdxAux, h, if_true, List.mem_cons] at hmem
        rcases hmem with rfl | hmem
        · exact ⟨0, by simp, by simp, by simpa using h⟩
        · rcases ih.mp hmem with ⟨j, hj, hkj, hp⟩
          exact ⟨j + 1, by simp only [List.length_cons]; omega, by omega, by simpa using hp⟩
      · simp only [whereIdxAux, h, Bool.false_eq_true, if_false] at hmem
        rcases ih.mp hmem with ⟨j, hj, hkj, hp⟩
        exact ⟨j + 1, by simp only [List.length_cons]; omega, by omega, by simpa using hp⟩
    · rintro ⟨j, hj, rfl, hp⟩
      cases j with
      | zero =>
        simp only [List.getD_cons_zero] at hp
        simp [whereIdxAux, hp]
      | succ j' =>
        simp only [List.getD_cons_succ] at hp
        simp only [List.length_cons] at hj
        by_cases h : p a
        · simp only [whereIdxAux, h, if_true, List.mem_cons]
          exact Or.inr (ih.mpr ⟨j', by omega, by omega, hp⟩)
        · simp only [whereIdxAux, h, Bool.false_eq_true, if_false]
          exact ih.mpr ⟨j', by omega, by omega, hp⟩

theorem mem_whereIdx (p : ℝ → Bool) (l : List ℝ) (i : ℕ) :
    i ∈ whereIdx p l ↔ i < l.length ∧ p (l.getD i 0) = true := by
  rw [whereIdx, mem_whereIdxAux]
  constructor
  · rintro ⟨j, hj, rfl, hp⟩
    exact ⟨by omega, by simpa using hp⟩
  · rintro ⟨hi, hp⟩
    exact ⟨i, hi, by omega, hp⟩

theorem foldl_min_spec : ∀ (t : List ℝ) (a : ℝ),
    (t.foldl min a = a ∨ t.foldl min a ∈ t) ∧ t.foldl min a ≤ a ∧ ∀ x ∈ t, t.foldl min a ≤ x
  | [], a => by simp
  | b :: t, a => by
    simp only [List.foldl_cons]
    have h := foldl_min_spec t (min a b)
    refine ⟨?_, le_trans h.2.1 (min_le_left a b), ?_⟩
    · rcases h.1 with heq | hmem
      · rcases min_choice a b with h' | h'
        · exact Or.inl (heq.trans h')
        · refine Or.inr ?_
          rw [heq, h']
          exact List.mem_cons_self b t
      · exact Or.inr (List.mem_cons_of_mem b hmem)
    · intro x hx
      rcases List.mem_cons.mp hx with rfl | hx'
      · exact le_trans h.2.1 (min_le_right a x)
      · exact h.2.2 x hx'

theorem pymin_spec {l : List ℝ} {m : ℝ} (h : pymin l = some m) :
    m ∈ l ∧ ∀ x ∈ l, m ≤ x := by
  cases l with
  | nil => simp [pymin] at h
  | cons a t =>
    simp only [pymin, Option.some.injEq] at h
    subst h
    have hs := foldl_min_spec t a
    constructor
    · rcases hs.1 with heq | hmem
      · rw [heq]; exact List.mem_cons_self a t
      · exact List.mem_cons_of_mem a hmem
    · intro x hx
      rcases List.mem_cons.mp hx with rfl | hx'
      · exact hs.2.1
      · exact hs.2.2 x hx'

theorem pymin_cons (a : ℝ) (t : List ℝ) : ∃ m, pymin (a :: t) = some m :=
  ⟨t.foldl min a, rfl⟩

theorem pymax_cons (a : ℝ) (t : List ℝ) : ∃ m, pymax (a :: t) = some m :=
  ⟨t.foldl max a, rfl⟩

theorem argminAux_spec : ∀ (l : List ℝ) (bv : ℝ) (bi k : ℕ),
    (argminAux l bv bi k = bi ∧ ∀ x ∈ l, bv ≤ x)
    ∨ (∃ j, j < l.length ∧ argminAux l bv bi k = k + j ∧ l.getD j 0 < bv ∧
        (∀ x ∈ l, l.getD j 0 ≤ x) ∧ ∀ j', j' < j → l.getD j 0 < l.getD j' 0)
  | [], bv, bi, k => by simp [argminAux]
  | a :: t, bv, bi, k => by
    by_cases h : a < bv
    · simp only [argminAux, h, if_true]
      rcases argminAux_spec t a k (k + 1) with ⟨heq, hle⟩ | ⟨j, hj, heq, hlt, hle, hfirst⟩
      · refine Or.inr ⟨0, by simp only [List.length_cons]; omega, by simpa using heq,
          by simpa using h, ?_, fun j' hj' => absurd hj' (Nat.not_lt_zero j')⟩
        intro x hx
        rcases List.mem_cons.mp hx with rfl | hx'
        · simp
        · simpa using hle x hx'
      · refine Or.inr ⟨j + 1, by simp only [List.length_cons]; omega,
          by simp only [heq]; omega, ?_, ?_, ?_⟩
        · simp only [List.getD_cons_succ]
          exact lt_trans hlt h
        · intro x hx
          rcases List.mem_cons.mp hx with rfl | hx'
          · simp only [List.getD_cons_succ]
            exact le_of_lt hlt
          · simp only [List.getD_cons_succ]
            exact hle x hx'
        · intro j' hj'
          cases j' with
          | zero =>
            simp only [List.getD_cons_succ, List.getD_cons_zero]
            exact hlt
          | succ j'' =>
            simp only [List.getD_cons_succ]
            exact hfirst j'' (by omega)
    · simp only [argminAux, h, Bool.false_eq_true, if_false]
      rcases argminAux_spec t bv bi (k + 1) with ⟨heq, hle⟩ | ⟨j, hj, heq, hlt, hle, hfirst⟩
      · refine Or.inl ⟨heq, ?_⟩
        intro x hx
        rcases List.mem_cons.mp hx with rfl | hx'
        · exact le_of_not_lt h
        · exact hle x hx'
      · refine Or.inr ⟨j + 1, by simp only [List.length_cons]; omega,
          by simp only [heq]; omega, ?_, ?_, ?_⟩
        · simp only [List.getD_cons_succ]
          exact hlt
        · intro x hx
          rcases List.mem_cons.mp hx with rfl | hx'
          · simp only [List.getD_cons_succ]
            exact le_trans (le_of_lt hlt) (le_of_not_lt h)
          · simp only [List.getD_cons_succ]
            exact hle x hx'
        · intro j' hj'
          cases j' with
          | zero =>
            simp only [List.getD_cons_succ, List.getD_cons_zero]
            exact lt_of_lt_of_le hlt (le_of_not_lt h)
          | succ j'' =>
            simp only [List.getD_cons_succ]
            exact hfirst j'' (by omega)

theorem argmin_spec {l : List ℝ} {i : ℕ} (h : argmin l = some i) :
    i < l.length ∧ (∀ j, j < l.length → l.getD i 0 ≤ l.getD j 0) ∧
      ∀ j, j < i → l.getD j 0 > l.getD i 0 := by
  cases l with
  | nil => simp [argmin] at h
  | cons a t =>
    simp only [argmin, Option.some.injEq] at h
    subst h
    rcases argminAux_spec t a 0 1 with ⟨heq, hle⟩ | ⟨j, hj, heq, hlt, hle, hfirst⟩
    · rw [heq]
      refine ⟨by simp, ?_, by omega⟩
      intro j hjlen
      cases j with
      | zero => simp
      | succ j' =>
        simp only [List.getD_cons_zero, List.getD_cons_succ]
        refine hle _ ?_
        have hj' : j' < t.length := by simp at hjlen; omega
        rw [List.getD_eq_getElem t 0 hj']
        exact List.getElem_mem hj'
    · rw [heq]
      have hi : 1 + j = j + 1 := by omega
      rw [hi]
      refine ⟨by simp; omega, ?_, ?_⟩
      · intro j'' hlen
        cases j'' with
        | zero =>
          simp only [List.getD_cons_succ, List.getD_cons_zero]
          exact le_of_lt hlt
        | succ j' =>
          simp only [List.getD_cons_succ]
          refine hle _ ?_
          have hj' : j' < t.length := by simp at hlen; omega
          rw [List.getD_eq_getElem t 0 hj']
          exact List.getElem_mem hj'
      · intro j'' hj''
        cases j'' with
        | zero =>
          simp only [List.getD_cons_succ, List.getD_cons_zero]
          exact hlt
        | succ j' =>
          simp only [List.getD_cons_succ]
          exact hfirst j' (by omega)

theorem pick_eq_map {α : Type} (l : List α) (d : α) :
    ∀ (idxs : List ℕ), (∀ i ∈ idxs, i < l.length) →
      pick l idxs = some (idxs.map (fun i => l.getD i d))
  | [], _ => rfl
  | i :: is, h => by
    have hi : i < l.length := h i (List.mem_cons_self i is)
    have hrec := pick_eq_map l d is (fun j hj => h j (List.mem_cons_of_mem i hj))
    simp only [pick, hrec, List.get?_eq_get hi, List.map_cons]
    rw [List.getD_eq_getElem l d hi]
    rfl

theorem mem_uniqueSorted (l : List ℝ) (a : ℝ) : a ∈ uniqueSorted l ↔ a ∈ l := by
  rw [uniqueSorted]
  rw [(List.perm_insertionSort (fun a b => a ≤ b) l.dedup).mem_iff]
  exact List.mem_dedup

theorem nodup_uniqueSorted (l : List ℝ) : (uniqueSorted l).Nodup :=
  ((List.perm_insertionSort (fun a b => a ≤ b) l.dedup).nodup_iff).mpr (List.nodup_dedup l)

theorem whereIdxAux_succ (p : ℝ → Bool) :
    ∀ (l : List ℝ) (k : ℕ), whereIdxAux p l (k + 1) = (whereIdxAux p l k).map (fun i => i + 1)
  | [], _ => rfl
  | a :: t, k => by
    by_cases h : p a
    · simp only [whereIdxAux, h, if_true, List.map_cons]
      rw [whereIdxAux_succ p t (k + 1)]
    · simp only [whereIdxAux, h, Bool.false_eq_true, if_false]
      rw [whereIdxAux_succ p t (k + 1)]

theorem slice_xvalues (p : ℝ → Bool) (pz px : Rupture → ℝ) :
    ∀ (rl : List Rupture),
      (whereIdx p (rl.map pz)).map (fun i => (rl.map px).getD i 0)
        = (rl.filter (fun r => p (pz r))).map px
  | [] => rfl
  | r :: rl => by
    have ih := slice_xvalues p pz px rl
    by_cases h : p (pz r)
    · simp only [List.map_cons, whereIdx, whereIdxAux, h, if_true, List.filter_cons]
      rw [whereIdxAux_succ p (rl.map pz) 0]
      simp only [List.map_cons, List.map_map, List.getD_cons_zero]
      refine congrArg (px r :: ·) ?_
      rw [← ih, whereIdx]
      exact List.map_congr_left (fun i _ => by simp [Function.comp])
    · simp only [List.map_cons, whereIdx, whereIdxAux, h, Bool.false_eq_true, if_false, List.filter_cons]
      rw [whereIdxAux_succ p (rl.map pz) 0]
      simp only [List.map_map]
      rw [← ih, whereIdx]
      exact List.map_congr_left (fun i _ => by simp [Function.comp])

theorem slice_rvalues (p : ℝ → Bool) (pz : Rupture → ℝ) :
    ∀ (rl : List Rupture) (rmse : List ℝ), rl.length = rmse.length →
      (whereIdx p (rl.map pz)).map (fun i => rmse.getD i 0)
        = ((rl.zip rmse).filter (fun c => p (pz c.1))).map (fun c => c.2)
  | [], rmse, _ => rfl
  | r :: rl, [], hlen => by simp at hlen
  | r :: rl, v :: rmse, hlen => by
    have ih := slice_rvalues p pz rl rmse (by simpa using hlen)
    by_cases h : p (pz r)
    · simp only [List.map_cons, whereIdx, whereIdxAux, h, if_true, List.zip_cons_cons,
        List.filter_cons]
      rw [whereIdxAux_succ p (rl.map pz) 0]
      simp only [List.map_cons, List.map_map, List.getD_cons_zero]
      refine congrArg (v :: ·) ?_
      rw [← ih, whereIdx]
      exact List.map_congr_left (fun i _ => by simp [Function.comp])
    · simp only [List.map_cons, whereIdx, whereIdxAux, h, Bool.false_eq_true, if_false, List.zip_cons_cons,
        List.filter_cons]
      rw [whereIdxAux_succ p (rl.map pz) 0]
      simp only [List.map_map]
      rw [← ih, whereIdx]
      exact List.map_congr_left (fun i _ => by simp [Function.comp])

theorem zip_filter_fst (q : Rupture → Bool) :
    ∀ (rl : List Rupture) (rmse : List ℝ), rl.length = rmse.length →
      ((rl.zip rmse).filter (fun c => q c.1)).map (fun c => c.1) = rl.filter q
  | [], rmse, _ => rfl
  | r :: rl, [], hlen => by simp at hlen
  | r :: rl, v :: rmse, hlen => by
    have ih := zip_filter_fst q rl rmse (by simpa using hlen)
    by_cases h : q r
    · simp only [List.zip_cons_cons, List.filter_cons, h, if_true, List.map_cons]
      rw [ih]
    · simp only [List.zip_cons_cons, List.filter_cons, h, Bool.false_eq_true, if_false]
      rw [ih]

theorem repl_zip_sum : ∀ (n : ℕ) (x : ℝ) (l : List ℝ), l.length = n →
    (((List.replicate n x).zip l).map (fun q => q.1 * q.2)).sum = x * l.sum
  | 0, x, l, hlen => by
    have : l = [] := List.length_eq_zero.mp hlen
    subst this
    simp
  | n + 1, x, [], hlen => by simp at hlen
  | n + 1, x, a :: l, hlen => by
    have ih := repl_zip_sum n x l (by simpa using hlen)
    simp only [List.replicate_succ, List.zip_cons_cons, List.map_cons, List.sum_cons, ih]
    ring

theorem mem_pointMins (X Y R : List ℝ) (a b m : ℝ) :
    (a, b, m) ∈ pointMins X Y R ↔
      a ∈ X ∧ b ∈ Y ∧
        pymin ((((X.zip Y).zip R).filter
          (fun q => decide (q.1.1 = a) && decide (q.1.2 = b))).map (fun q => q.2)) = some m := by
  unfold pointMins
  constructor
  · intro hmem
    rcases List.mem_flatMap.mp hmem with ⟨xi, hxi, hin⟩
    rcases List.mem_filterMap.mp hin with ⟨yi, hyi, heq⟩
    cases hpm : pymin ((((X.zip Y).zip R).filter
        (fun q => decide (q.1.1 = xi) && decide (q.1.2 = yi))).map (fun q => q.2)) with
    | none =>
      rw [hpm] at heq
      exact absurd heq (by simp)
    | some mv =>
      rw [hpm] at heq
      simp only [Option.some.injEq, Prod.mk.injEq] at heq
      obtain ⟨rfl, rfl, rfl⟩ := heq
      exact ⟨(mem_uniqueSorted X xi).mp hxi, (mem_uniqueSorted Y yi).mp hyi, hpm⟩
  · rintro ⟨hx, hy, hpm⟩
    refine List.mem_flatMap.mpr ⟨a, (mem_uniqueSorted X a).mpr hx, ?_⟩
    refine List.mem_filterMap.mpr ⟨b, (mem_uniqueSorted Y b).mpr hy, ?_⟩
    rw [hpm]

theorem mem_pointMins_fst (X Y R : List ℝ) (xi : ℝ) (t : ℝ × ℝ × ℝ)
    (h : t ∈ (uniqueSorted Y).filterMap (fun yi =>
      match pymin ((((X.zip Y).zip R).filter
          (fun q => decide (q.1.1 = xi) && decide (q.1.2 = yi))).map (fun q => q.2)) with
      | none => none
      | some mv => some (xi, yi, mv))) :
    t.1 = xi ∧ t.2.1 ∈ uniqueSorted Y := by
  rcases List.mem_filterMap.mp h with ⟨yi, hyi, heq⟩
  cases hpm : pymin ((((X.zip Y).zip R).filter
      (fun q => decide (q.1.1 = xi) && decide (q.1.2 = yi))).map (fun q => q.2)) with
  | none =>
    rw [hpm] at heq
    exact absurd heq (by simp)
  | some mv =>
    rw [hpm] at heq
    simp only [Option.some.injEq] at heq
    rw [← heq]
    exact ⟨rfl, hyi⟩

theorem nodup_pointMins_xy (X Y R : List ℝ) :
    ((pointMins X Y R).map (fun t => (t.1, t.2.1))).Nodup := by
  unfold pointMins
  rw [List.map_flatMap, List.nodup_flatMap]
  constructor
  · intro xi _
    rw [List.map_filterMap]
    refine List.Nodup.filterMap ?_ (nodup_uniqueSorted Y)
    intro y1 y2 t ht1 ht2
    simp only [Option.mem_def] at ht1 ht2
    cases h1 : pymin ((((X.zip Y).zip R).filter
        (fun q => decide (q.1.1 = xi) && decide (q.1.2 = y1))).map (fun q => q.2)) with
    | none =>
      rw [h1] at ht1
      exact absurd ht1 (by simp)
    | some mv1 =>
      rw [h1] at ht1
      cases h2 : pymin ((((X.zip Y).zip R).filter
          (fun q => decide (q.1.1 = xi) && decide (q.1.2 = y2))).map (fun q => q.2)) with
      | none =>
        rw [h2] at ht2
        exact absurd ht2 (by simp)
      | some mv2 =>
        rw [h2] at ht2
        simp only [Option.map_some', Option.some.injEq] at ht1 ht2
        rw [← ht1] at ht2
        simp only [Prod.mk.injEq] at ht2
        exact ht2.2.symm
  · refine (nodup_uniqueSorted X).imp ?_
    intro x1 x2 hne
    show List.Disjoint _ _
    intro t ht1 ht2
    rcases List.mem_map.mp ht1 with ⟨u1, hu1, hgu1⟩
    rcases List.mem_map.mp ht2 with ⟨u2, hu2, hgu2⟩
    have h1 := (mem_pointMins_fst X Y R x1 u1 hu1).1
    have h2 := (mem_pointMins_fst X Y R x2 u2 hu2).1
    apply hne
    rw [← h1, ← h2]
    have : u1.1 = t.1 := by rw [← hgu1]
    rw [this, ← hgu2]

theorem mem_accepted_indices (rmse : List ℝ) (thr : ℝ) (i : ℕ) :
    i ∈ accepted_indices rmse thr ↔ i < rmse.length ∧ rmse.getD i 0 < thr := by
  rw [accepted_indices, mem_whereIdx]
  simp only [decide_eq_true_eq]

/-- Placeholder rupture used as the (never inspected) `getD` default. -/
def defaultRupture : Rupture := ⟨0, 0, 0, 0, 0, 0⟩

theorem finalizeFitted_some (s : RuptureGmf) (rmse : List ℝ) (idxs : List ℕ) (warned : Bool)
    (hner : rmse ≠ []) (hbound : ∀ i ∈ idxs, i < s.rupture_list.length) (hne : idxs ≠ []) :
    ∃ s', finalizeFitted s rmse idxs warned = some (s', warned) ∧
      s'.fitted_ruptures = some (idxs.map (fun i => s.rupture_list.getD i defaultRupture)) ∧
      s'.rupture_list = s.rupture_list ∧ s'.gmf_list = s.gmf_list ∧
      s'.mmi_list = s.mmi_list ∧ s'.mmi_obs = s.mmi_obs ∧
      s'.sum_squares_list = s.sum_squares_list ∧ s'.rmse = s.rmse ∧
      s'.sigma = s.sigma ∧ s'.uncert_fun = s.uncert_fun := by
  obtain ⟨a, t, rfl⟩ : ∃ a t, rmse = a :: t := by
    cases rmse with
    | nil => exact absurd rfl hner
    | cons a t => exact ⟨a, t, rfl⟩
  have hpick := pick_eq_map s.rupture_list defaultRupture idxs hbound
  obtain ⟨i0, is, rfl⟩ : ∃ i0 is, idxs = i0 :: is := by
    cases idxs with
    | nil => exact absurd rfl hne
    | cons i0 is => exact ⟨i0, is, rfl⟩
  refine ⟨{ s with
      fitted_ruptures := some ((i0 :: is).map (fun i => s.rupture_list.getD i defaultRupture)),
      param_ranges := some (rangesOf (s.rupture_list.getD i0 defaultRupture)
        (is.map (fun i => s.rupture_list.getD i defaultRupture))) },
    ?_, rfl, rfl, rfl, rfl, rfl, rfl, rfl, rfl, rfl⟩
  simp only [finalizeFitted, pymax, hpick, List.map_cons]

theorem uncertainty_model_degenerate (s : RuptureGmf) (obs rmse : List ℝ)
    (hobs : s.mmi_obs = some obs) (hr : s.rmse = some rmse) (h6 : obs.length ≤ 6) :
    uncertainty_model s = finalizeFitted s rmse (accepted_indices rmse 1e24) true := by
  simp only [uncertainty_model, hobs, hr, if_pos h6]

theorem uncertainty_model_main (s : RuptureGmf) (obs rmse : List ℝ) (m : ℝ)
    (hobs : s.mmi_obs = some obs) (hr : s.rmse = some rmse) (h6 : ¬obs.length ≤ 6)
    (hm : pymin rmse = some m) :
    uncertainty_model s =
      finalizeFitted { s with sigma := some ((1 / ((obs.length : ℝ) - 6)) * m ^ 2),
                              uncert_fun := some (m, (1 / ((obs.length : ℝ) - 6)) * m ^ 2) }
        rmse (accepted_indices rmse (ppf975 m ((1 / ((obs.length : ℝ) - 6)) * m ^ 2))) false := by
  simp only [uncertainty_model, hobs, hr, if_neg h6, hm]

theorem slice_bridge_x (s : RuptureGmf) (rmse : List ℝ) (x z : ParamKey) (zvalue : ℝ)
    (hlen : s.rupture_list.length = rmse.length) :
    (whereIdx (fun a => decide (a = zvalue)) (s.rupture_list.map (paramOf z))).map
        (fun i => (s.rupture_list.map (paramOf x)).getD i 0)
      = (contributing s.rupture_list rmse z zvalue).map (fun q => paramOf x q.1) := by
  rw [slice_xvalues (fun a => decide (a = zvalue)) (paramOf z) (paramOf x) s.rupture_list]
  simp only [contributing]
  rw [← zip_filter_fst (fun r => decide (paramOf z r = zvalue)) s.rupture_list rmse hlen]
  rw [List.map_map]
  rfl

theorem slice_bridge_r (s : RuptureGmf) (rmse : List ℝ) (z : ParamKey) (zvalue : ℝ)
    (hlen : s.rupture_list.length = rmse.length) :
    pick rmse (whereIdx (fun a => decide (a = zvalue)) (s.rupture_list.map (paramOf z)))
      = some ((contributing s.rupture_list rmse z zvalue).map (fun q => q.2)) := by
  have hb : ∀ i ∈ whereIdx (fun a => decide (a = zvalue)) (s.rupture_list.map (paramOf z)),
      i < rmse.length := by
    intro i hi
    have h1 := ((mem_whereIdx _ _ i).mp hi).1
    rw [List.length_map] at h1
    omega
  rw [pick_eq_map rmse 0 _ hb]
  refine congrArg some ?_
  rw [slice_rvalues (fun a => decide (a = zvalue)) (paramOf z) s.rupture_list rmse hlen]
  rfl

theorem uncertainty_slice_run (s : RuptureGmf) (rmse : List ℝ) (x y z : ParamKey)
    (zvalue dx dy : ℝ) (hr : s.rmse = some rmse)
    (hlen : s.rupture_list.length = rmse.length)
    (hc : contributing s.rupture_list rmse z zvalue ≠ []) :
    uncertainty_slice s x y z zvalue dx dy =
      some (((pointMins
          ((contributing s.rupture_list rmse z zvalue).map (fun q => paramOf x q.1))
          ((contributing s.rupture_list rmse z zvalue).map (fun q => paramOf y q.1))
          ((contributing s.rupture_list rmse z zvalue).map (fun q => q.2))).map (fun t => t.1),
        (pointMins
          ((contributing s.rupture_list rmse z zvalue).map (fun q => paramOf x q.1))
          ((contributing s.rupture_list rmse z zvalue).map (fun q => paramOf y q.1))
          ((contributing s.rupture_list rmse z zvalue).map (fun q => q.2))).map (fun t => t.2.1),
        (pointMins
          ((contributing s.rupture_list rmse z zvalue).map (fun q => paramOf x q.1))
          ((contributing s.rupture_list rmse z zvalue).map (fun q => paramOf y q.1))
          ((contributing s.rupture_list rmse z zvalue).map (fun q => q.2))).map
            (fun t => t.2.2)), s) := by
  obtain ⟨q0, c', hcc⟩ : ∃ q0 c', contributing s.rupture_list rmse z zvalue = q0 :: c' := by
    cases hcc : contributing s.rupture_list rmse z zvalue with
    | nil => exact absurd hcc hc
    | cons q0 c' => exact ⟨q0, c', rfl⟩
  have hx := slice_bridge_x s rmse x z zvalue hlen
  have hy := slice_bridge_x s rmse y z zvalue hlen
  have hrv := slice_bridge_r s rmse z zvalue hlen
  rw [hcc] at hx hy hrv
  simp only [uncertainty_slice, hr, hrv, hx, hy, hcc, List.map_cons, pymin, pymax]

theorem uncertainty_slice_noMatch (s : RuptureGmf) (rmse : List ℝ) (x y z : ParamKey)
    (zvalue dx dy : ℝ) (hr : s.rmse = some rmse)
    (hlen : s.rupture_list.length = rmse.length)
    (hc : contributing s.rupture_list rmse z zvalue = []) :
    uncertainty_slice s x y z zvalue dx dy = none := by
  have hx := slice_bridge_x s rmse x z zvalue hlen
  have hy := slice_bridge_x s rmse y z zvalue hlen
  have hrv := slice_bridge_r s rmse z zvalue hlen
  rw [hc] at hx hy hrv
  simp only [List.map_nil] at hx hy hrv
  simp only [uncertainty_slice, hr, hrv, hx, hy, pymin, pymax]

theorem contributing_eq_nil_iff (rl : List Rupture) (rmse : List ℝ) (z : ParamKey)
    (zvalue : ℝ) (hlen : rl.length = rmse.length) :
    contributing rl rmse z zvalue = [] ↔ ∀ r ∈ rl, paramOf z r ≠ zvalue := by
  rw [contributing, List.filter_eq_nil_iff]
  constructor
  · intro h r hr heq
    have hmap : (rl.zip rmse).map Prod.fst = rl := List.map_fst_zip rl rmse (le_of_eq hlen)
    rw [← hmap] at hr
    rcases List.mem_map.mp hr with ⟨q, hq, hq1⟩
    have := h q hq
    rw [hq1, heq] at this
    simp at this
  · rintro h ⟨r, v⟩ hq
    have hrmem : r ∈ rl := (List.of_mem_zip hq).1
    simp [h r hrmem]

theorem calc_rmse_cached (s : RuptureGmf) (obs : List ℝ) (weights : Option (List ℝ))
    (L : List ℝ) (hss : s.sum_squares_list = some L) :
    calc_rmse s obs weights = { s with mmi_obs := some obs } := by
  simp only [calc_rmse, hss]

theorem calc_rmse_fresh_unweighted (s : RuptureGmf) (obs : List ℝ)
    (hfresh : s.sum_squares_list = none) :
    calc_rmse s obs none = { s with
      mmi_obs := some obs
      sum_squares_list := some (s.mmi_list.map (fun mmi => sum_squares mmi obs))
      rmse := some (s.mmi_list.map
        (fun mmi => Real.sqrt (sum_squares mmi obs / (obs.length : ℝ)))) } := by
  simp only [calc_rmse, hfresh, calc_sum_squares_mmi, Option.getD_some, List.map_map]
  rfl

theorem calc_rmse_fresh_weighted (s : RuptureGmf) (obs w : List ℝ)
    (hfresh : s.sum_squares_list = none) :
    calc_rmse s obs (some w) = { s with
      mmi_obs := some obs
      sum_squares_list := some (s.mmi_list.map (fun mmi => weightedSS mmi obs w))
      rmse := some (s.mmi_list.map (fun mmi => Real.sqrt (weightedSS mmi obs w))) } := by
  simp only [calc_rmse, hfresh, calc_sum_squares_mmi_weighted, Option.getD_some, List.map_map]
  rfl

/-- A `RuptureGmf` instance as produced by `__init__` followed by the
(external, out-of-scope) rupture/ground-motion/MMI generation that fills
`rupture_list` and `mmi_list`; every attribute created later is still unset. -/
def mkStore (rl : List Rupture) (ml : List (List ℝ)) : RuptureGmf :=
  { rupture_list := rl, gmf_list := [], mmi_list := ml, mmi_obs := none,
    sum_squares_list := none, rmse := none, best_rupture := none, min_rmse := none,
    sigma := none, uncert_fun := none, fitted_ruptures := none, param_ranges := none }

theorem sqrt_four : Real.sqrt 4 = 2 := by
  rw [show (4 : ℝ) = 2 ^ 2 by norm_num, Real.sqrt_sq (by norm_num : (0:ℝ) ≤ 2)]

theorem normalizeWeights_eq_div (w : List ℝ) :
    normalizeWeights w = w.map (fun wi => wi / w.sum) := by
  simp only [normalizeWeights, mul_one_div]

theorem weightedSS_eq_spec (mmi obs w : List ℝ) :
    weightedSS mmi obs w = weightedMisfitSpec mmi obs w := by
  rw [weightedSS, weightedMisfitSpec, normalizeWeights_eq_div]

/-- C4: in unweighted mode, for every candidate intensity field of the same
length N as the observation vector (N > 0 sites), the misfit computed by
`calc_rmse` equals `sqrt( (sum over sites of (predicted − observed)²) / N )`,
the root-mean-square error over the N sites. -/
theorem C4_unweighted_misfit_is_rmse (s : RuptureGmf) (obs : List ℝ)
    (hfresh : s.sum_squares_list = none) (hN : 0 < obs.length)
    (hlen : ∀ mmi ∈ s.mmi_list, mmi.length = obs.length) :
    (calc_rmse s obs none).rmse = some (s.mmi_list.map (fun mmi => rmseSpec mmi obs)) := by
  rw [calc_rmse_fresh_unweighted s obs hfresh]
  rfl

/-- C4 witness: the misfit of the single candidate field [2] against the
observation [0] is the root-mean-square error sqrt(4/1) = 2. -/
theorem C4_unweighted_misfit_is_rmse_witness :
    (mkStore [] [[(2:ℝ)]]).sum_squares_list = none
      ∧ 0 < [(0:ℝ)].length
      ∧ (∀ mmi ∈ (mkStore [] [[(2:ℝ)]]).mmi_list, mmi.length = [(0:ℝ)].length)
      ∧ (calc_rmse (mkStore [] [[(2:ℝ)]]) [0] none).rmse
          = some ((mkStore [] [[(2:ℝ)]]).mmi_list.map (fun mmi => rmseSpec mmi [0])) :=
  ⟨rfl, by norm_num, by simp [mkStore],
    C4_unweighted_misfit_is_rmse (mkStore [] [[(2:ℝ)]]) [0] rfl (by norm_num)
      (by simp [mkStore])⟩

/-- C9 counterexample: the misfit is not recomputed when the observations
change.  After evaluating the candidate field [2] against observations [0]
(misfit sqrt(4/1) = 2), a second `calc_rmse` call with new observations [1]
still reports misfit 2, while a fresh store yields sqrt(1/1) = 1. -/
theorem C9_counterexample :
    (calc_rmse (calc_rmse (mkStore [] [[(2:ℝ)]]) [0] none) [1] none).rmse = some [2]
      ∧ (calc_rmse (mkStore [] [[(2:ℝ)]]) [1] none).rmse = some [1]
      ∧ some [(2:ℝ)] ≠ some [(1:ℝ)] := by
  refine ⟨?_, ?_, by simp⟩
  · rw [calc_rmse_fresh_unweighted (mkStore [] [[(2:ℝ)]]) [0] rfl]
    rw [calc_rmse_cached _ [1] none ([[(2:ℝ)]].map (fun mmi => sum_squares mmi [0])) rfl]
    simp only [mkStore, List.map_cons, List.map_nil]
    norm_num [sum_squares, sqrt_four]
  · rw [calc_rmse_fresh_unweighted (mkStore [] [[(2:ℝ)]]) [1] rfl]
    simp only [mkStore, List.map_cons, List.map_nil]
    norm_num [sum_squares]

/-- C9 amended: the misfit result is cached, not recomputed: once
`sum_squares_list` exists, any further `calc_rmse` call — whatever new
observations or weighting policy it passes — only stores the new observation
vector and leaves the stale `sum_squares_list` and `rmse` untouched. -/
theorem C9_amended_misfit_cached (s : RuptureGmf) (obs : List ℝ)
    (weights : Option (List ℝ)) (L : List ℝ) (hss : s.sum_squares_list = some L) :
    calc_rmse s obs weights = { s with mmi_obs := some obs }
      ∧ (calc_rmse s obs weights).rmse = s.rmse
      ∧ (calc_rmse s obs weights).sum_squares_list = some L := by
  have h := calc_rmse_cached s obs weights L hss
  exact ⟨h, by rw [h], by rw [h]; exact hss⟩

/-- C9 witness: instantiates the cached-misfit theorem on the store obtained
after one evaluation of candidate field [2] against observations [0]. -/
theorem C9_amended_misfit_cached_witness :
    (calc_rmse (mkStore [] [[(2:ℝ)]]) [0] none).sum_squares_list
        = some [sum_squares [2] [0]]
      ∧ calc_rmse (calc_rmse (mkStore [] [[(2:ℝ)]]) [0] none) [1] none
          = { calc_rmse (mkStore [] [[(2:ℝ)]]) [0] none with mmi_obs := some [1] } := by
  have h1 : (calc_rmse (mkStore [] [[(2:ℝ)]]) [0] none).sum_squares_list
      = some [sum_squares [2] [0]] := by
    rw [calc_rmse_fresh_unweighted (mkStore [] [[(2:ℝ)]]) [0] rfl]
    rfl
  exact ⟨h1, (C9_amended_misfit_cached _ [1] none [sum_squares [2] [0]] h1).1⟩

/-- C2 counterexample: the weighted misfit **is** square-rooted by the code.
For the single candidate field [2], observations [0] and weights [1], the
claimed (un-rooted) weighted misfit is 1·(2−0)² = 4, but `calc_rmse` stores
`rmse = [sqrt 4] = [2]`, and 2 ≠ 4; hence the weighted misfit does not equal
the unweighted misfit's square (both are 2 here, their square is 4). -/
theorem C2_counterexample :
    (calc_rmse (mkStore [] [[(2:ℝ)]]) [0] (some [1])).rmse = some [2]
      ∧ weightedMisfitSpec [(2:ℝ)] [0] [1] = 4
      ∧ ((2:ℝ) ≠ 4) := by
  refine ⟨?_, ?_, by norm_num⟩
  · rw [calc_rmse_fresh_weighted (mkStore [] [[(2:ℝ)]]) [0] [1] rfl]
    simp only [mkStore, List.map_cons, List.map_nil]
    norm_num [weightedSS, normalizeWeights, sqrt_four]
  · norm_num [weightedMisfitSpec]

/-- C2 amended: in weighted mode the weights are normalised to sum to 1 and
the stored sum-of-squares is the weighted sum of squared residuals
`sum_i (w_i/Σw) (predicted_i − observed_i)²` with no square root; the misfit
(`rmse`) used downstream, however, is the square root of that quantity.
Consequently, with all weights equal (and a positive number of sites), the
weighted misfit equals the unweighted misfit itself, not its square. -/
theorem C2_amended_weighted_misfit (s : RuptureGmf) (obs w : List ℝ)
    (hfresh : s.sum_squares_list = none) :
    (calc_rmse s obs (some w)).sum_squares_list
        = some (s.mmi_list.map (fun mmi => weightedMisfitSpec mmi obs w))
      ∧ (calc_rmse s obs (some w)).rmse
        = some (s.mmi_list.map (fun mmi => Real.sqrt (weightedMisfitSpec mmi obs w)))
      ∧ (∀ (n : ℕ) (c : ℝ), w = List.replicate n c → c ≠ 0 → 0 < n → obs.length = n →
          (∀ mmi ∈ s.mmi_list, mmi.length = n) →
          (calc_rmse s obs (some w)).rmse = (calc_rmse s obs none).rmse) := by
  have hw := calc_rmse_fresh_weighted s obs w hfresh
  refine ⟨?_, ?_, ?_⟩
  · rw [hw]
    simp only [weightedSS_eq_spec]
  · rw [hw]
    simp only [weightedSS_eq_spec]
  · rintro n c rfl hc hn hobs hlenm
    rw [hw, calc_rmse_fresh_unweighted s obs hfresh]
    simp only []
    refine congrArg some (List.map_congr_left ?_)
    intro mmi hmmi
    have hml := hlenm mmi hmmi
    have hres : ((mmi.zip obs).map (fun q => (q.1 - q.2) ^ 2)).length = n := by
      rw [List.length_map, List.length_zip, hml, hobs, min_self]
    have hsum : (List.replicate n c).sum = (n : ℝ) * c := by
      rw [List.sum_replicate, nsmul_eq_mul]
    have hnorm : normalizeWeights (List.replicate n c) = List.replicate n (1 / (n : ℝ)) := by
      rw [normalizeWeights, List.map_replicate, hsum]
      have : c * (1 / ((n : ℝ) * c)) = 1 / (n : ℝ) := by
        field_simp
        ring
      rw [this]
    have hws : weightedSS mmi obs (List.replicate n c)
        = (1 / (n : ℝ)) * ((mmi.zip obs).map (fun q => (q.1 - q.2) ^ 2)).sum := by
      rw [weightedSS, hnorm]
      exact repl_zip_sum n (1 / (n : ℝ)) _ hres
    rw [hws, sum_squares, hobs]
    rw [one_div, inv_mul_eq_div]

/-- C2 witness: instantiates the amended weighted-misfit theorem on the single
candidate field [2], observations [0] and the uniform weight vector [1]. -/
theorem C2_amended_weighted_misfit_witness :
    (mkStore [] [[(2:ℝ)]]).sum_squares_list = none
      ∧ (calc_rmse (mkStore [] [[(2:ℝ)]]) [0] (some [1])).sum_squares_list
          = some ((mkStore [] [[(2:ℝ)]]).mmi_list.map
              (fun mmi => weightedMisfitSpec mmi [0] [1]))
      ∧ (calc_rmse (mkStore [] [[(2:ℝ)]]) [0] (some [1])).rmse
          = (calc_rmse (mkStore [] [[(2:ℝ)]]) [0] none).rmse := by
  have h := C2_amended_weighted_misfit (mkStore [] [[(2:ℝ)]]) [0] [1] rfl
  exact ⟨rfl, h.1, h.2.2 1 1 rfl (by norm_num) (by norm_num) (by norm_num)
    (by simp [mkStore])⟩

/-- C5: `find_best_fit` fails (uncaught `ValueError` from `np.argmin`) on an
empty misfit sequence; on a non-empty one (with an aligned rupture list) it
stores the rupture at the first index attaining the minimum misfit and that
minimum value, ties broken by the lowest index. -/
theorem C5_find_best_fit_spec :
    (∀ s : RuptureGmf, s.rmse = some [] → find_best_fit s = none)
      ∧ (∀ (s : RuptureGmf) (rmse : List ℝ), s.rmse = some rmse → rmse ≠ [] →
          rmse.length ≤ s.rupture_list.length →
          ∃ i, i < rmse.length
            ∧ find_best_fit s = some { s with
                best_rupture := s.rupture_list.get? i, min_rmse := some (rmse.getD i 0) }
            ∧ (∀ j, j < rmse.length → rmse.getD i 0 ≤ rmse.getD j 0)
            ∧ (∀ j, j < i → rmse.getD i 0 < rmse.getD j 0)) := by
  constructor
  · intro s h
    simp [find_best_fit, h, argmin]
  · intro s rmse hr hne hlen
    obtain ⟨a, t, rfl⟩ : ∃ a t, rmse = a :: t := by
      cases rmse with
      | nil => exact absurd rfl hne
      | cons a t => exact ⟨a, t, rfl⟩
    have hargmin : argmin (a :: t) = some (argminAux t a 0 1) := rfl
    have hspec := argmin_spec hargmin
    set i := argminAux t a 0 1 with hi
    have hilen : i < (a :: t).length := hspec.1
    have hirup : i < s.rupture_list.length := lt_of_lt_of_le hilen hlen
    have hget : s.rupture_list.get? i = some (s.rupture_list.get ⟨i, hirup⟩) :=
      List.get?_eq_get hirup
    have hgetv : (a :: t).get? i = some ((a :: t).getD i 0) := by
      rw [List.get?_eq_get hilen, List.getD_eq_getElem _ 0 hilen]
      rfl
    refine ⟨i, hilen, ?_, hspec.2.1, fun j hj => hspec.2.2 j hj⟩
    simp only [find_best_fit, hr, hargmin, hget, hgetv]

theorem eval_argmin_011 : argmin [(0:ℝ), 1, 1] = some 0 := by
  simp only [argmin, argminAux, if_neg (show ¬((1:ℝ) < (0:ℝ)) by norm_num)]

theorem eval_pymin_02 : pymin [(0.2:ℝ), 1, 1] = some 0.2 := by
  simp only [pymin, List.foldl_cons, List.foldl_nil]
  rw [min_eq_left (by norm_num : (0.2:ℝ) ≤ 1), min_eq_left (by norm_num : (0.2:ℝ) ≤ 1)]

theorem eval_pymin_011 : pymin [(0:ℝ), 1, 1] = some 0 := by
  simp only [pymin, List.foldl_cons, List.foldl_nil]
  rw [min_eq_left (by norm_num : (0:ℝ) ≤ 1), min_eq_left (by norm_num : (0:ℝ) ≤ 1)]

theorem eval_accepted_sentinel : accepted_indices [(0:ℝ), 1, 1] 1e24 = [0, 1, 2] := by
  have d0 : decide ((0:ℝ) < 1e24) = true := decide_eq_true (by norm_num)
  have d1 : decide ((1:ℝ) < 1e24) = true := decide_eq_true (by norm_num)
  simp only [accepted_indices, whereIdx, whereIdxAux, d0, d1, if_true]

theorem eval_accepted_B :
    accepted_indices [(0.2:ℝ), 1, 1] (ppf975 0.2 ((1 / ((7:ℝ) - 6)) * 0.2 ^ 2)) = [0] := by
  have h1 : decide ((0.2:ℝ) < ppf975 0.2 ((1 / ((7:ℝ) - 6)) * 0.2 ^ 2)) = true :=
    decide_eq_true (by norm_num [ppf975, z0975])
  have h2 : decide ((1:ℝ) < ppf975 0.2 ((1 / ((7:ℝ) - 6)) * 0.2 ^ 2)) = false :=
    decide_eq_false (by norm_num [ppf975, z0975])
  simp only [accepted_indices, whereIdx, whereIdxAux, h1, h2, if_true,
    Bool.false_eq_true, if_false]

theorem eval_accepted_zero :
    accepted_indices [(0:ℝ), 1, 1] (ppf975 0 ((1 / ((7:ℝ) - 6)) * 0 ^ 2)) = [] := by
  have h0 : decide ((0:ℝ) < ppf975 0 ((1 / ((7:ℝ) - 6)) * 0 ^ 2)) = false :=
    decide_eq_false (by norm_num [ppf975, z0975])
  have h1 : decide ((1:ℝ) < ppf975 0 ((1 / ((7:ℝ) - 6)) * 0 ^ 2)) = false :=
    decide_eq_false (by norm_num [ppf975, z0975])
  simp only [accepted_indices, whereIdx, whereIdxAux, h0, h1,
    Bool.false_eq_true, if_false]

/-- The fitting run of spec Scenario B: three stored ruptures, seven
observations, misfit sequence [0.2, 1, 1] (best misfit 0.2, one degree of
freedom). -/
noncomputable def stateB : RuptureGmf :=
  { mkStore [defaultRupture, defaultRupture, defaultRupture] [] with
    mmi_obs := some [5, 5, 5, 5, 5, 5, 5]
    rmse := some [0.2, 1, 1] }

/-- A fitting run with a perfect best fit: three stored ruptures, seven
observations, misfit sequence [0, 1, 1] (best misfit 0). -/
noncomputable def stateC3 : RuptureGmf :=
  { mkStore [defaultRupture, defaultRupture, defaultRupture] [] with
    mmi_obs := some [5, 5, 5, 5, 5, 5, 5]
    rmse := some [0, 1, 1] }

/-- C1 (code bug): on seven observations with misfit sequence [0.2, 1, 1]
(best misfit 0.2, degrees of freedom 1) the code stores
`sigma = min_misfit²/dof = 0.04` and freezes `norm(0.2, 0.04)`: the scale
(the standard deviation) of the distribution it uses is 0.04, the variance,
whereas the claim (and the classical relation `sigma² = min²/dof` together
with the method's own docstring) requires standard deviation
`sqrt(0.2²/1) = 0.2`; and 0.04 ≠ 0.2. -/
theorem C1_scale_is_variance_not_std :
    ∃ s', uncertainty_model stateB = some (s', false)
      ∧ s'.sigma = some ((1 / ((7:ℝ) - 6)) * 0.2 ^ 2)
      ∧ s'.uncert_fun = some (0.2, (1 / ((7:ℝ) - 6)) * 0.2 ^ 2)
      ∧ (1 / ((7:ℝ) - 6)) * 0.2 ^ 2 = 0.04
      ∧ Real.sqrt ((0.2:ℝ) ^ 2 / ((7:ℝ) - 6)) = 0.2
      ∧ ((0.04 : ℝ) ≠ 0.2) := by
  have hum := uncertainty_model_main stateB [5, 5, 5, 5, 5, 5, 5] [0.2, 1, 1] 0.2
    rfl rfl (by norm_num) eval_pymin_02
  rw [show (([5, 5, 5, 5, 5, 5, 5] : List ℝ).length : ℝ) = (7:ℝ) by norm_num] at hum
  rw [eval_accepted_B] at hum
  obtain ⟨s', heq, hfit, hrl, hgl, hml, hobs, hssl, hrm, hsig, hfun⟩ :=
    finalizeFitted_some { stateB with
        sigma := some ((1 / ((7:ℝ) - 6)) * 0.2 ^ 2)
        uncert_fun := some (0.2, (1 / ((7:ℝ) - 6)) * 0.2 ^ 2) }
      [0.2, 1, 1] [0] false (by simp) (by simp [stateB, mkStore]) (by simp)
  refine ⟨s', hum.trans heq, ?_, ?_, by norm_num, ?_, by norm_num⟩
  · rw [hsig]
  · rw [hfun]
  · rw [show (0.2:ℝ) ^ 2 / ((7:ℝ) - 6) = 0.2 ^ 2 by norm_num,
      Real.sqrt_sq (by norm_num : (0:ℝ) ≤ 0.2)]

/-- C3 counterexample: when the best misfit is exactly 0 (a perfect fit, 7
observations so dof = 1), the threshold is `ppf975 0 0 = 0` and no index has
misfit strictly below it: the best-fit index 0 is **not** in the accepted
set, the accepted set is empty, and `uncertainty_model` then crashes
(`min()` of an empty parameter list), returning `none`. -/
theorem C3_counterexample :
    argmin [(0:ℝ), 1, 1] = some 0
      ∧ accepted_indices [(0:ℝ), 1, 1] (ppf975 0 ((1 / ((7:ℝ) - 6)) * 0 ^ 2)) = []
      ∧ uncertainty_model stateC3 = none := by
  refine ⟨eval_argmin_011, eval_accepted_zero, ?_⟩
  have hum := uncertainty_model_main stateC3 [5, 5, 5, 5, 5, 5, 5] [0, 1, 1] 0
    rfl rfl (by norm_num) eval_pymin_011
  rw [show (([5, 5, 5, 5, 5, 5, 5] : List ℝ).length : ℝ) = (7:ℝ) by norm_num] at hum
  rw [eval_accepted_zero] at hum
  rw [hum]
  simp [finalizeFitted, pymax, pick]

/-- C3 amended: the accepted set is exactly the indices with misfit strictly
below the threshold `ppf975(min, min²/dof)`; **provided the minimum misfit is
positive**, the threshold strictly exceeds the minimum, so the best-fit index
always belongs to the accepted set, the accepted set is non-empty, and the
estimator succeeds.  (When the minimum misfit is 0 the accepted set is empty
and the estimator fails — see the counterexample.) -/
theorem C3_amended_best_fit_accepted (s : RuptureGmf) (obs rmse : List ℝ) (m : ℝ)
    (hobs : s.mmi_obs = some obs) (hr : s.rmse = some rmse) (h6 : 6 < obs.length)
    (hm : pymin rmse = some m) (hmpos : 0 < m)
    (hlen : rmse.length ≤ s.rupture_list.length) :
    (∀ i, i ∈ accepted_indices rmse (ppf975 m ((1 / ((obs.length : ℝ) - 6)) * m ^ 2))
        ↔ i < rmse.length
          ∧ rmse.getD i 0 < ppf975 m ((1 / ((obs.length : ℝ) - 6)) * m ^ 2))
      ∧ (∀ i, argmin rmse = some i →
          i ∈ accepted_indices rmse (ppf975 m ((1 / ((obs.length : ℝ) - 6)) * m ^ 2)))
      ∧ accepted_indices rmse (ppf975 m ((1 / ((obs.length : ℝ) - 6)) * m ^ 2)) ≠ []
      ∧ ∃ s', uncertainty_model s = some (s', false) := by
  set thr := ppf975 m ((1 / ((obs.length : ℝ) - 6)) * m ^ 2) with hthr
  have hdof : (0:ℝ) < (obs.length : ℝ) - 6 := by
    have h7 : (6:ℝ) < (obs.length : ℝ) := by exact_mod_cast h6
    linarith
  have hmlt : m < thr := by
    rw [hthr, ppf975]
    have hz : (0:ℝ) < z0975 := by norm_num [z0975]
    have h1 : (0:ℝ) < 1 / ((obs.length : ℝ) - 6) := by positivity
    have h2 : (0:ℝ) < m ^ 2 := pow_pos hmpos 2
    have h3 := mul_pos (mul_pos h1 h2) hz
    linarith
  have hargmem : ∀ i, argmin rmse = some i → i ∈ accepted_indices rmse thr := by
    intro i hi
    have hspec := argmin_spec hi
    have hmmem := (pymin_spec hm).1
    rcases List.mem_iff_get.mp hmmem with ⟨⟨j, hj⟩, hjv⟩
    have hle := hspec.2.1 j hj
    have hgd : rmse.getD j 0 = m := by
      rw [List.getD_eq_getElem _ 0 hj]
      rw [List.get_eq_getElem] at hjv
      exact hjv
    rw [hgd] at hle
    exact (mem_accepted_indices rmse thr i).mpr ⟨hspec.1, lt_of_le_of_lt hle hmlt⟩
  have hne : rmse ≠ [] := by
    intro h
    rw [h] at hm
    simp [pymin] at hm
  obtain ⟨a, t, rfl⟩ : ∃ a t, rmse = a :: t := by
    cases rmse with
    | nil => exact absurd rfl hne
    | cons a t => exact ⟨a, t, rfl⟩
  have hmemarg := hargmem _ (rfl : argmin (a :: t) = some (argminAux t a 0 1))
  have hnonempty : accepted_indices (a :: t) thr ≠ [] := List.ne_nil_of_mem hmemarg
  have hbound : ∀ i ∈ accepted_indices (a :: t) thr, i < s.rupture_list.length := by
    intro i hi
    exact lt_of_lt_of_le ((mem_accepted_indices _ thr i).mp hi).1 hlen
  have hum := uncertainty_model_main s obs (a :: t) m hobs hr (by omega) hm
  obtain ⟨s', heq, hrest⟩ :=
    finalizeFitted_some { s with
        sigma := some ((1 / ((obs.length : ℝ) - 6)) * m ^ 2)
        uncert_fun := some (m, (1 / ((obs.length : ℝ) - 6)) * m ^ 2) }
      (a :: t) (accepted_indices (a :: t) thr) false hne hbound hnonempty
  exact ⟨fun i => mem_accepted_indices (a :: t) thr i, hargmem, hnonempty,
    ⟨s', hum.trans heq⟩⟩

/-- C3 witness: instantiates the amended theorem on the Scenario-B run
(misfits [0.2, 1, 1], seven observations, positive best misfit 0.2). -/
theorem C3_amended_best_fit_accepted_witness :
    stateB.mmi_obs = some [5, 5, 5, 5, 5, 5, 5]
      ∧ stateB.rmse = some [0.2, 1, 1]
      ∧ 6 < ([5, 5, 5, 5, 5, 5, 5] : List ℝ).length
      ∧ pymin [(0.2:ℝ), 1, 1] = some 0.2
      ∧ (0:ℝ) < 0.2
      ∧ ([(0.2:ℝ), 1, 1] : List ℝ).length ≤ stateB.rupture_list.length
      ∧ ((∀ i, i ∈ accepted_indices [(0.2:ℝ), 1, 1]
            (ppf975 0.2 ((1 / ((([5, 5, 5, 5, 5, 5, 5] : List ℝ).length : ℝ) - 6)) * 0.2 ^ 2))
          ↔ i < ([(0.2:ℝ), 1, 1] : List ℝ).length
            ∧ ([(0.2:ℝ), 1, 1] : List ℝ).getD i 0
                < ppf975 0.2 ((1 / ((([5, 5, 5, 5, 5, 5, 5] : List ℝ).length : ℝ) - 6))
                    * 0.2 ^ 2))
        ∧ (∀ i, argmin [(0.2:ℝ), 1, 1] = some i →
            i ∈ accepted_indices [(0.2:ℝ), 1, 1]
              (ppf975 0.2 ((1 / ((([5, 5, 5, 5, 5, 5, 5] : List ℝ).length : ℝ) - 6))
                * 0.2 ^ 2)))
        ∧ accepted_indices [(0.2:ℝ), 1, 1]
            (ppf975 0.2 ((1 / ((([5, 5, 5, 5, 5, 5, 5] : List ℝ).length : ℝ) - 6))
              * 0.2 ^ 2)) ≠ []
        ∧ ∃ s', uncertainty_model stateB = some (s', false)) :=
  ⟨rfl, rfl, by norm_num, eval_pymin_02, by norm_num, by simp [stateB, mkStore],
    C3_amended_best_fit_accepted stateB [5, 5, 5, 5, 5, 5, 5] [0.2, 1, 1] 0.2
      rfl rfl (by norm_num) eval_pymin_02 (by norm_num) (by simp [stateB, mkStore])⟩

/-- A three-candidate store with stored misfits [5, 3, 3] (tie between the
last two, first occurrence at index 1). -/
noncomputable def stateC5 : RuptureGmf :=
  { mkStore [defaultRupture, defaultRupture, defaultRupture] [] with
    rmse := some [5, 3, 3] }

/-- C5 witness: instantiates the best-fit theorem on misfits [5, 3, 3]. -/
theorem C5_find_best_fit_spec_witness :
    stateC5.rmse = some [5, 3, 3]
      ∧ ([(5:ℝ), 3, 3] : List ℝ) ≠ []
      ∧ ([(5:ℝ), 3, 3] : List ℝ).length ≤ stateC5.rupture_list.length
      ∧ (∃ i, i < ([(5:ℝ), 3, 3] : List ℝ).length
          ∧ find_best_fit stateC5 = some { stateC5 with
              best_rupture := stateC5.rupture_list.get? i,
              min_rmse := some (([(5:ℝ), 3, 3] : List ℝ).getD i 0) }
          ∧ (∀ j, j < ([(5:ℝ), 3, 3] : List ℝ).length →
              ([(5:ℝ), 3, 3] : List ℝ).getD i 0 ≤ ([(5:ℝ), 3, 3] : List ℝ).getD j 0)
          ∧ (∀ j, j < i →
              ([(5:ℝ), 3, 3] : List ℝ).getD i 0 < ([(5:ℝ), 3, 3] : List ℝ).getD j 0)) :=
  ⟨rfl, by simp, by simp [stateC5, mkStore],
    C5_find_best_fit_spec.2 stateC5 [5, 3, 3] rfl (by simp) (by simp [stateC5, mkStore])⟩

/-- The fitting run of spec Scenario A: three candidates with intensity
fields [5,5,5], [6,6,6], [4,4,4]. -/
def scenarioA : RuptureGmf :=
  mkStore [defaultRupture, defaultRupture, defaultRupture] [[5, 5, 5], [6, 6, 6], [4, 4, 4]]

theorem eval_scenarioA_state :
    calc_rmse scenarioA [5, 5, 5] none = { scenarioA with
      mmi_obs := some [5, 5, 5]
      sum_squares_list := some [0, 3, 3]
      rmse := some [0, 1, 1] } := by
  rw [calc_rmse_fresh_unweighted scenarioA [5, 5, 5] rfl]
  congr 1
  · norm_num [scenarioA, mkStore, sum_squares, List.zip_cons_cons]
  · norm_num [scenarioA, mkStore, sum_squares, List.zip_cons_cons, Real.sqrt_zero,
      Real.sqrt_one]

theorem eval_scenarioA_best :
    find_best_fit (calc_rmse scenarioA [5, 5, 5] none)
      = some { calc_rmse scenarioA [5, 5, 5] none with
          best_rupture := some defaultRupture, min_rmse := some 0 } := by
  rw [eval_scenarioA_state]
  simp only [find_best_fit, eval_argmin_011, scenarioA, mkStore, List.get?]

theorem eval_scenarioA_um :
    ∃ s', uncertainty_model (calc_rmse scenarioA [5, 5, 5] none) = some (s', true)
      ∧ s'.fitted_ruptures = some [defaultRupture, defaultRupture, defaultRupture] := by
  rw [eval_scenarioA_state]
  have hum := uncertainty_model_degenerate { scenarioA with
      mmi_obs := some [5, 5, 5]
      sum_squares_list := some [0, 3, 3]
      rmse := some [0, 1, 1] } [5, 5, 5] [0, 1, 1] rfl rfl (by norm_num)
  rw [eval_accepted_sentinel] at hum
  obtain ⟨s', heq, hfit, hrest⟩ :=
    finalizeFitted_some { scenarioA with
        mmi_obs := some [5, 5, 5]
        sum_squares_list := some [0, 3, 3]
        rmse := some [0, 1, 1] } [0, 1, 1] [0, 1, 2] true (by simp)
      (by simp [scenarioA, mkStore]) (by simp)
  refine ⟨s', hum.trans heq, ?_⟩
  rw [hfit]
  simp [scenarioA, mkStore, List.getD]

/-- C6: with at most 6 observations the estimator takes the degenerate
branch: it prints the insufficient-data diagnostic (flag `true`), accepts
exactly the candidates whose misfit is strictly below the sentinel `1e24`,
and does not fail (as long as some candidate is below the sentinel and the
stores are aligned).  In particular, on Scenario A — candidates [5,5,5],
[6,6,6], [4,4,4] against observations [5,5,5] — the unweighted misfits are
[0, 1, 1], the best fit is index 0 (rupture 0) with value 0, and all three
candidates are accepted. -/
theorem C6_insufficient_data_fallback :
    (∀ (s : RuptureGmf) (obs rmse : List ℝ), s.mmi_obs = some obs → s.rmse = some rmse →
        obs.length ≤ 6 →
        (∀ i, i ∈ accepted_indices rmse 1e24 ↔ i < rmse.length ∧ rmse.getD i 0 < 1e24)
          ∧ (rmse ≠ [] → (∀ i ∈ accepted_indices rmse 1e24, i < s.rupture_list.length) →
              accepted_indices rmse 1e24 ≠ [] →
              ∃ s', uncertainty_model s = some (s', true)))
      ∧ (calc_rmse scenarioA [5, 5, 5] none).rmse = some [0, 1, 1]
      ∧ find_best_fit (calc_rmse scenarioA [5, 5, 5] none)
          = some { calc_rmse scenarioA [5, 5, 5] none with
              best_rupture := some defaultRupture, min_rmse := some 0 }
      ∧ accepted_indices [(0:ℝ), 1, 1] 1e24 = [0, 1, 2]
      ∧ (∃ s', uncertainty_model (calc_rmse scenarioA [5, 5, 5] none) = some (s', true)
          ∧ s'.fitted_ruptures = some [defaultRupture, defaultRupture, defaultRupture]) := by
  refine ⟨?_, by rw [eval_scenarioA_state], eval_scenarioA_best, eval_accepted_sentinel,
    eval_scenarioA_um⟩
  intro s obs rmse hobs hr h6
  refine ⟨fun i => mem_accepted_indices rmse 1e24 i, ?_⟩
  intro hne hbound hnonempty
  have hum := uncertainty_model_degenerate s obs rmse hobs hr h6
  obtain ⟨s', heq, hrest⟩ :=
    finalizeFitted_some s rmse (accepted_indices rmse 1e24) true hne hbound hnonempty
  exact ⟨s', hum.trans heq⟩

/-- C6 witness: instantiates the degenerate-branch theorem on the
Scenario-A run (three observations, misfits [0, 1, 1]). -/
theorem C6_insufficient_data_fallback_witness :
    (calc_rmse scenarioA [5, 5, 5] none).mmi_obs = some [5, 5, 5]
      ∧ (calc_rmse scenarioA [5, 5, 5] none).rmse = some [0, 1, 1]
      ∧ ([(5:ℝ), 5, 5] : List ℝ).length ≤ 6
      ∧ ((∀ i, i ∈ accepted_indices [(0:ℝ), 1, 1] 1e24
            ↔ i < ([(0:ℝ), 1, 1] : List ℝ).length
              ∧ ([(0:ℝ), 1, 1] : List ℝ).getD i 0 < 1e24)
          ∧ (([(0:ℝ), 1, 1] : List ℝ) ≠ [] →
              (∀ i ∈ accepted_indices [(0:ℝ), 1, 1] 1e24,
                i < (calc_rmse scenarioA [5, 5, 5] none).rupture_list.length) →
              accepted_indices [(0:ℝ), 1, 1] 1e24 ≠ [] →
              ∃ s', uncertainty_model (calc_rmse scenarioA [5, 5, 5] none)
                  = some (s', true))) := by
  refine ⟨?_, ?_, by norm_num, ?_⟩
  · rw [eval_scenarioA_state]
  · rw [eval_scenarioA_state]
  · exact C6_insufficient_data_fallback.1 (calc_rmse scenarioA [5, 5, 5] none)
      [5, 5, 5] [0, 1, 1] (by rw [eval_scenarioA_state]) (by rw [eval_scenarioA_state])
      (by norm_num)

theorem zip3_maps : ∀ (L : List (ℝ × ℝ × ℝ)),
    (L.map (fun t => t.1)).zip ((L.map (fun t => t.2.1)).zip (L.map (fun t => t.2.2))) = L
  | [] => rfl
  | t :: L => by
    simp only [List.map_cons, List.zip_cons_cons, zip3_maps L]

theorem zip_map_triple (f g h : (Rupture × ℝ) → ℝ) : ∀ (c : List (Rupture × ℝ)),
    ((c.map f).zip (c.map g)).zip (c.map h) = c.map (fun q => ((f q, g q), h q))
  | [] => rfl
  | q :: c => by
    simp only [List.map_cons, List.zip_cons_cons, zip_map_triple f g h c]

/-- C7: for a slice request matched by at least one candidate, only the
candidates whose `z` parameter is exactly `zvalue` contribute; the returned
raw triples contain, for each distinct `(x, y)` pair occurring among those
candidates, exactly the minimum misfit over the contributing candidates
sharing that pair (each pair listed once); and the returned raw data is
independent of the interpolation grid resolution. -/
theorem C7_slice_min_per_xy (s : RuptureGmf) (rmse : List ℝ) (x y z : ParamKey)
    (zvalue dx dy : ℝ) (hr : s.rmse = some rmse)
    (hlen : s.rupture_list.length = rmse.length)
    (hc : contributing s.rupture_list rmse z zvalue ≠ []) :
    ∃ xs ys ms, uncertainty_slice s x y z zvalue dx dy = some ((xs, ys, ms), s)
      ∧ (∀ a b mv, (a, b, mv) ∈ xs.zip (ys.zip ms)
          ↔ ((∃ q ∈ contributing s.rupture_list rmse z zvalue,
                paramOf x q.1 = a ∧ paramOf y q.1 = b)
            ∧ pymin (((contributing s.rupture_list rmse z zvalue).filter
                (fun q => decide (paramOf x q.1 = a) && decide (paramOf y q.1 = b))).map
                  (fun q => q.2)) = some mv))
      ∧ ((xs.zip (ys.zip ms)).map (fun t => (t.1, t.2.1))).Nodup
      ∧ (∀ dx' dy', uncertainty_slice s x y z zvalue dx dy
          = uncertainty_slice s x y z zvalue dx' dy') := by
  have hrun := uncertainty_slice_run s rmse x y z zvalue dx dy hr hlen hc
  refine ⟨_, _, _, hrun, ?_, ?_, ?_⟩
  · intro a b mv
    rw [zip3_maps, mem_pointMins]
    have hsel : ((((contributing s.rupture_list rmse z zvalue).map (fun q => paramOf x q.1)).zip
            ((contributing s.rupture_list rmse z zvalue).map (fun q => paramOf y q.1))).zip
            ((contributing s.rupture_list rmse z zvalue).map (fun q => q.2))).filter
            (fun q => decide (q.1.1 = a) && decide (q.1.2 = b))
        = ((contributing s.rupture_list rmse z zvalue).filter
            (fun q => decide (paramOf x q.1 = a) && decide (paramOf y q.1 = b))).map
            (fun q => ((paramOf x q.1, paramOf y q.1), q.2)) := by
      rw [zip_map_triple (fun q => paramOf x q.1) (fun q => paramOf y q.1) (fun q => q.2)]
      rw [List.filter_map]
      rfl
    rw [hsel, List.map_map]
    constructor
    · rintro ⟨ha, hb, hpm⟩
      refine ⟨?_, ?_⟩
      · have hmem := (pymin_spec hpm).1
        rcases List.mem_map.mp hmem with ⟨q, hq, hq2⟩
        have hqf := List.mem_filter.mp hq
        have hdec := hqf.2
        simp only [Bool.and_eq_true, decide_eq_true_eq] at hdec
        exact ⟨q, hqf.1, hdec.1, hdec.2⟩
      · exact hpm
    · rintro ⟨⟨q, hq, hqa, hqb⟩, hpm⟩
      exact ⟨List.mem_map.mpr ⟨q, hq, hqa⟩, List.mem_map.mpr ⟨q, hq, hqb⟩, hpm⟩
  · rw [zip3_maps]
    exact nodup_pointMins_xy _ _ _
  · intro dx' dy'
    rw [hrun, uncertainty_slice_run s rmse x y z zvalue dx' dy' hr hlen hc]

/-- A one-candidate store with stored misfit [1] and no uncertainty model
(`sigma` and `uncert_fun` unset). -/
noncomputable def stateSlice : RuptureGmf :=
  { mkStore [defaultRupture] [] with rmse := some [1] }

theorem stateSlice_contributing :
    contributing stateSlice.rupture_list [1] ParamKey.depth 0 ≠ [] := by
  intro hnil
  have := (contributing_eq_nil_iff stateSlice.rupture_list [1] ParamKey.depth 0
    (by simp [stateSlice, mkStore])).mp hnil defaultRupture (by simp [stateSlice, mkStore])
  simp [paramOf, defaultRupture] at this

/-- C7 witness: instantiates the slice theorem on a single candidate at
depth 0, misfit 1, sliced across depth at value 0. -/
theorem C7_slice_min_per_xy_witness :
    stateSlice.rmse = some [1]
      ∧ stateSlice.rupture_list.length = ([(1:ℝ)] : List ℝ).length
      ∧ contributing stateSlice.rupture_list [1] ParamKey.depth 0 ≠ []
      ∧ (∃ xs ys ms, uncertainty_slice stateSlice ParamKey.mag ParamKey.longitude
            ParamKey.depth 0 0.02 0.01 = some ((xs, ys, ms), stateSlice)
          ∧ (∀ a b mv, (a, b, mv) ∈ xs.zip (ys.zip ms)
              ↔ ((∃ q ∈ contributing stateSlice.rupture_list [1] ParamKey.depth 0,
                    paramOf ParamKey.mag q.1 = a ∧ paramOf ParamKey.longitude q.1 = b)
                ∧ pymin (((contributing stateSlice.rupture_list [1] ParamKey.depth 0).filter
                    (fun q => decide (paramOf ParamKey.mag q.1 = a)
                      && decide (paramOf ParamKey.longitude q.1 = b))).map
                      (fun q => q.2)) = some mv))
          ∧ ((xs.zip (ys.zip ms)).map (fun t => (t.1, t.2.1))).Nodup
          ∧ (∀ dx' dy', uncertainty_slice stateSlice ParamKey.mag ParamKey.longitude
                ParamKey.depth 0 0.02 0.01
              = uncertainty_slice stateSlice ParamKey.mag ParamKey.longitude
                  ParamKey.depth 0 dx' dy')) :=
  ⟨rfl, by simp [stateSlice, mkStore], stateSlice_contributing,
    C7_slice_min_per_xy stateSlice [1] ParamKey.mag ParamKey.longitude ParamKey.depth
      0 0.02 0.01 rfl (by simp [stateSlice, mkStore]) stateSlice_contributing⟩

/-- A one-candidate store (candidate at depth 0, misfit 0) for the
zero-match slice request. -/
noncomputable def state8 : RuptureGmf :=
  { mkStore [defaultRupture] [] with rmse := some [0] }

/-- C8 counterexample: a slice request whose fixed depth value 1 matches no
candidate (the only candidate has depth 0) does **not** return empty raw
data: the builtin `min()` of the empty `xvalues` array raises an uncaught
`ValueError` before the return statement, so the call produces nothing. -/
theorem C8_counterexample :
    (∀ r ∈ state8.rupture_list, paramOf ParamKey.depth r ≠ 1)
      ∧ uncertainty_slice state8 ParamKey.mag ParamKey.longitude ParamKey.depth 1
          0.02 0.01 = none := by
  have hall : ∀ r ∈ state8.rupture_list, paramOf ParamKey.depth r ≠ 1 := by
    intro r hrmem
    have : r = defaultRupture := by simpa [state8, mkStore] using hrmem
    subst this
    norm_num [paramOf, defaultRupture]
  refine ⟨hall, ?_⟩
  exact uncertainty_slice_noMatch state8 [0] ParamKey.mag ParamKey.longitude ParamKey.depth
    1 0.02 0.01 rfl (by simp [state8, mkStore])
    ((contributing_eq_nil_iff state8.rupture_list [0] ParamKey.depth 1
      (by simp [state8, mkStore])).mpr hall)

/-- C8 amended: the slice operation returns no data exactly when no candidate
matches the fixed `z` value — with zero matches it fails (uncaught
`ValueError` from `min()` of an empty sequence at grid construction) instead
of returning empty raw data; with at least one match it always returns the
raw data (the fewer-than-2-distinct-points rendering failures are caught
inside the method). -/
theorem C8_amended_zero_match_crashes (s : RuptureGmf) (rmse : List ℝ) (x y z : ParamKey)
    (zvalue dx dy : ℝ) (hr : s.rmse = some rmse)
    (hlen : s.rupture_list.length = rmse.length) :
    (uncertainty_slice s x y z zvalue dx dy = none
        ↔ ∀ r ∈ s.rupture_list, paramOf z r ≠ zvalue)
      ∧ ((∃ r ∈ s.rupture_list, paramOf z r = zvalue) →
          ∃ out, uncertainty_slice s x y z zvalue dx dy = some (out, s)) := by
  have hiff := contributing_eq_nil_iff s.rupture_list rmse z zvalue hlen
  constructor
  · constructor
    · intro hnone
      by_contra hforall
      push_neg at hforall
      obtain ⟨r, hrmem, hreq⟩ := hforall
      have hcne : contributing s.rupture_list rmse z zvalue ≠ [] := by
        intro hnil
        exact (hiff.mp hnil) r hrmem hreq
      rw [uncertainty_slice_run s rmse x y z zvalue dx dy hr hlen hcne] at hnone
      cases hnone
    · intro hall
      exact uncertainty_slice_noMatch s rmse x y z zvalue dx dy hr hlen (hiff.mpr hall)
  · rintro ⟨r, hrmem, hreq⟩
    have hcne : contributing s.rupture_list rmse z zvalue ≠ [] := by
      intro hnil
      exact (hiff.mp hnil) r hrmem hreq
    exact ⟨_, uncertainty_slice_run s rmse x y z zvalue dx dy hr hlen hcne⟩

/-- C8 witness: instantiates the amended theorem on the one-candidate store:
the depth-1 request matches nothing and returns `none`. -/
theorem C8_amended_zero_match_crashes_witness :
    state8.rmse = some [0]
      ∧ state8.rupture_list.length = ([(0:ℝ)] : List ℝ).length
      ∧ ((uncertainty_slice state8 ParamKey.mag ParamKey.longitude ParamKey.depth 1
            0.02 0.01 = none
          ↔ ∀ r ∈ state8.rupture_list, paramOf ParamKey.depth r ≠ 1)
        ∧ ((∃ r ∈ state8.rupture_list, paramOf ParamKey.depth r = 1) →
            ∃ out, uncertainty_slice state8 ParamKey.mag ParamKey.longitude ParamKey.depth 1
              0.02 0.01 = some (out, state8))) :=
  ⟨rfl, by simp [state8, mkStore],
    C8_amended_zero_match_crashes state8 [0] ParamKey.mag ParamKey.longitude ParamKey.depth
      1 0.02 0.01 rfl (by simp [state8, mkStore])⟩

/-- C10: on a slice request matched by at least one candidate, the method
returns the raw `(xs, ys, min-misfit)` arrays together with an unchanged
object state: the rupture list, intensity fields, misfit sequence,
observations, sigma, accepted set and parameter ranges are all exactly as
before the call, whether or not an uncertainty model exists (the state `s`
is arbitrary, in particular `sigma`/`uncert_fun` may be unset). -/
theorem C10_slice_preserves_state (s : RuptureGmf) (rmse : List ℝ) (x y z : ParamKey)
    (zvalue dx dy : ℝ) (hr : s.rmse = some rmse)
    (hlen : s.rupture_list.length = rmse.length)
    (hmatch : ∃ r ∈ s.rupture_list, paramOf z r = zvalue) :
    ∃ xs ys ms s', uncertainty_slice s x y z zvalue dx dy = some ((xs, ys, ms), s')
      ∧ s' = s
      ∧ s'.rupture_list = s.rupture_list ∧ s'.gmf_list = s.gmf_list
      ∧ s'.mmi_list = s.mmi_list ∧ s'.rmse = s.rmse ∧ s'.mmi_obs = s.mmi_obs
      ∧ s'.sum_squares_list = s.sum_squares_list
      ∧ s'.sigma = s.sigma ∧ s'.uncert_fun = s.uncert_fun
      ∧ s'.best_rupture = s.best_rupture ∧ s'.min_rmse = s.min_rmse
      ∧ s'.fitted_ruptures = s.fitted_ruptures ∧ s'.param_ranges = s.param_ranges := by
  obtain ⟨r, hrmem, hreq⟩ := hmatch
  have hcne : contributing s.rupture_list rmse z zvalue ≠ [] := by
    intro hnil
    exact (contributing_eq_nil_iff s.rupture_list rmse z zvalue hlen).mp hnil r hrmem hreq
  exact ⟨_, _, _, s, uncertainty_slice_run s rmse x y z zvalue dx dy hr hlen hcne,
    rfl, rfl, rfl, rfl, rfl, rfl, rfl, rfl, rfl, rfl, rfl, rfl, rfl⟩

/-- C10 witness: instantiates the frame theorem on the one-candidate store
with no uncertainty model (`sigma` unset). -/
theorem C10_slice_preserves_state_witness :
    stateSlice.rmse = some [1]
      ∧ stateSlice.rupture_list.length = ([(1:ℝ)] : List ℝ).length
      ∧ (∃ r ∈ stateSlice.rupture_list, paramOf ParamKey.depth r = 0)
      ∧ stateSlice.sigma = none
      ∧ (∃ xs ys ms s', uncertainty_slice stateSlice ParamKey.mag ParamKey.longitude
            ParamKey.depth 0 0.02 0.01 = some ((xs, ys, ms), s')
          ∧ s' = stateSlice
          ∧ s'.rupture_list = stateSlice.rupture_list ∧ s'.gmf_list = stateSlice.gmf_list
          ∧ s'.mmi_list = stateSlice.mmi_list ∧ s'.rmse = stateSlice.rmse
          ∧ s'.mmi_obs = stateSlice.mmi_obs
          ∧ s'.sum_squares_list = stateSlice.sum_squares_list
          ∧ s'.sigma = stateSlice.sigma ∧ s'.uncert_fun = stateSlice.uncert_fun
          ∧ s'.best_rupture = stateSlice.best_rupture ∧ s'.min_rmse = stateSlice.min_rmse
          ∧ s'.fitted_ruptures = stateSlice.fitted_ruptures
          ∧ s'.param_ranges = stateSlice.param_ranges) :=
  ⟨rfl, by simp [stateSlice, mkStore],
    ⟨defaultRupture, by simp [stateSlice, mkStore], by simp [paramOf, defaultRupture]⟩, rfl,
    C10_slice_preserves_state stateSlice [1] ParamKey.mag ParamKey.longitude ParamKey.depth
      0 0.02 0.01 rfl (by simp [stateSlice, mkStore])
      ⟨defaultRupture, by simp [stateSlice, mkStore], by simp [paramOf, defaultRupture]⟩⟩
